import Mathlib

/-!
Shallow embedding of `proj2/perceptron.py` (perceptron training rules and the
multiclass perceptron classifier).  Machine floats are modelled as rationals.
The `numpy` random initial weight vector of `batch_relaxation` is passed as an
explicit `init` argument; the `(n, features)` shape of a numpy sample matrix is
modelled as the list of rows together with an explicit column count `features`.
Training functions additionally return an exit tag, the final trial counter and
a per-trial trace, instrumentation used only to state the theorems; the first
component is the value the Python function returns.
-/

/-- Dot product `np.sum(w * y)` (also `np.dot(w, y)`) of equal-length vectors. -/
def dot (v w : List ℚ) : ℚ := (List.zipWith (fun a b => a * b) v w).sum

/-- Elementwise vector addition `v + w` of equal-length numpy vectors. -/
def vecAdd (v w : List ℚ) : List ℚ := List.zipWith (fun a b => a + b) v w

/-- Scalar multiple `c * v` of a numpy vector. -/
def vecScale (c : ℚ) (v : List ℚ) : List ℚ := v.map (fun a => c * a)

/-- Sum `np.sum(v ** 2)` of the squared entries of a vector. -/
def sumSq (v : List ℚ) : ℚ := (v.map (fun a => a ^ 2)).sum

/-- Modelled from the spec: `dist` lives in `proj2/util.py`, which is absent
from the sources; the spec describes `delta = distance(currentWeights,
previousTrialWeights)`, the Euclidean distance between consecutive weight
vectors.  The (irrational) square root is represented by its square `sqDist`,
and every comparison the code makes against a distance is expressed through
the square (squaring is an order isomorphism on nonnegatives). -/
def sqDist (v w : List ℚ) : ℚ := ((List.zipWith (fun a b => a - b) v w).map (fun a => a ^ 2)).sum

/-- Comparison `dist v w ≤ t` of the Euclidean distance against a threshold,
expressed through `sqDist` (see there): equivalent to `0 ≤ t ∧ sqDist ≤ t ^ 2`. -/
def distLe (v w : List ℚ) (t : ℚ) : Prop := 0 ≤ t ∧ sqDist v w ≤ t ^ 2

instance (v w : List ℚ) (t : ℚ) : Decidable (distLe v w t) := by
  unfold distLe; infer_instance

/-- Modelled from the spec: `approx` lives in `proj2/util.py`, absent from the
sources; the spec reads `approx(a, b, eps)` as "a is within eps of b". -/
def approx (a b eps : ℚ) : Prop := |a - b| ≤ eps

instance (a b eps : ℚ) : Decidable (approx a b eps) := by
  unfold approx; infer_instance

/-- Embedding of `normalize_features(cls, samples, labels)`: prepend a `1` to
every sample row and multiply the whole row by `-1` when its label differs
from `cls`.  Python indexes `labels[i]` for each row `i`; rows beyond the
length of `labels` (an `IndexError` in Python) are dropped by `zip`. -/
def normalize_features (cls : ℚ) (samples : List (List ℚ)) (labels : List ℚ) : List (List ℚ) :=
  (samples.zip labels).map
    (fun sl => if sl.2 ≠ cls then ((1 : ℚ) :: sl.1).map (fun a => -a) else (1 : ℚ) :: sl.1)

/-- Exit tag telling which `break` left the `fixed_increment` training loop. -/
inductive FIExit where
  | converged : FIExit
  | deltaStop : FIExit
  | capped : FIExit
  | fuelOut : FIExit
deriving DecidableEq

/-- Inner pass of `fixed_increment`: one sweep over the samples, updating the
weights by `weights + y` at every `y` with `np.sum(weights * y) ≤ 0` and
collecting those error samples in order. -/
def fiPass (w : List ℚ) : List (List ℚ) → List ℚ × List (List ℚ)
  | [] => (w, [])
  | y :: ys =>
    if dot w y ≤ 0 then
      let r := fiPass (vecAdd w y) ys
      (r.1, y :: r.2)
    else
      fiPass w ys

/-- Training loop of `fixed_increment`.  The state mirrors the Python locals
`weights`, `best`, `bw`, `bestd` (the last as a squared distance); `trial` is
the trial number of the pass about to run (Python inits it to `-1` and
increments at the top of the loop).  `fuel` makes the recursion structural;
`fixed_increment` supplies more fuel than the trial cap can consume.  Returns
the final weights, the exit tag, the final trial number and the trace of
`(weights before the pass, error count)` for every executed trial. -/
def fiLoop (samples : List (List ℚ)) (theta : ℚ) :
    ℕ → ℕ → List ℚ → WithTop ℕ → List ℚ → WithTop ℚ →
    List ℚ × FIExit × ℕ × List (List ℚ × ℕ)
  | 0, trial, w, _, _, _ => (w, FIExit.fuelOut, trial, [])
  | fuel + 1, trial, w, best, bw, bestd =>
    let old := w
    let p := fiPass w samples
    if p.2.length = 0 then
      (p.1, FIExit.converged, trial, [(old, p.2.length)])
    else
      let best1 := if (p.2.length : WithTop ℕ) < best then (p.2.length : WithTop ℕ) else best
      let bw1 := if (p.2.length : WithTop ℕ) < best then old else bw
      if 100000 < trial then
        (bw1, FIExit.capped, trial, [(old, p.2.length)])
      else
        let d := sqDist p.1 old
        let bestd1 := if (d : WithTop ℚ) < bestd then (d : WithTop ℚ) else bestd
        if distLe p.1 old theta then
          (p.1, FIExit.deltaStop, trial, [(old, p.2.length)])
        else
          let r := fiLoop samples theta fuel (trial + 1) p.1 best1 bw1 bestd1
          (r.1, r.2.1, r.2.2.1, (old, p.2.length) :: r.2.2.2)

/-- Embedding of `fixed_increment(samples, theta)`: all-ones initial weights of
length `features`, initial `best`/`bestd` of `np.inf`, initial best-candidate
`bw` aliasing the initial weights, then the training loop with enough fuel for
the 100 000-trial cap. -/
def fixed_increment (samples : List (List ℚ)) (features : ℕ) (theta : ℚ) :
    List ℚ × FIExit × ℕ × List (List ℚ × ℕ) :=
  fiLoop samples theta 100003 0 (List.replicate features 1) ⊤ (List.replicate features 1) ⊤

/-- Exit tag telling how the `batch_relaxation` training loop ended.
`emptyInput` marks a sample matrix with zero rows, where Python's
`for _ in cycle(range(n))` loop body never runs at all. -/
inductive BRExit where
  | converged : BRExit
  | smallUpdate : BRExit
  | capped : BRExit
  | emptyInput : BRExit
  | fuelOut : BRExit
deriving DecidableEq

/-- Errors raised by the embedded Python code. `invalidRate` is the
`ValueError` of `batch_relaxation`; `indexError` is the numpy `IndexError`
raised by `values[:, 1]` on an empty `values` array in `iter_classify`. -/
inductive PErr where
  | invalidRate : ℚ → PErr
  | indexError : PErr
deriving DecidableEq

/-- Embedding of the module-level `criterion(weights, errors, margin)`:
`0.5 * Σ_y ((weights·y − margin) / ‖y‖) ** 2`, written with the square pushed
inside so it is rational: `(weights·y − margin) ^ 2 / Σ y ** 2`.  (For a
zero-norm `y`, numpy would produce `inf`/`nan`; here division by zero is `0`.
No claim depends on that hazard.) -/
def criterion (weights : List ℚ) (errors : List (List ℚ)) (margin : ℚ) : ℚ :=
  (1 / 2) * ((errors.map (fun y => (dot weights y - margin) ^ 2 / sumSq y)).sum)

/-- Elementwise sum `np.sum(vs, axis=0)` of a list of `features`-length vectors. -/
def vecSum (features : ℕ) (vs : List (List ℚ)) : List ℚ :=
  vs.foldr vecAdd (List.replicate features 0)

/-- Training loop of `batch_relaxation`, mirroring the body of
`for _ in cycle(range(n))`.  State mirrors the Python locals `weights`,
`best`, `bd` (as a squared distance); `trial` starts at `0` and is incremented
at the bottom of the loop.  The stop test `approx(delta, 0, 1e-5)` on the
Euclidean `delta` is expressed as `distLe old w 1e-5` (see `sqDist`), and
`approx(criterion(old_weights, errors, margin), 0, 1e-5)` is kept verbatim. -/
def brLoop (samples : List (List ℚ)) (features : ℕ) (rate margin : ℚ) :
    ℕ → ℕ → List ℚ → WithTop ℕ → WithTop ℚ → List ℚ × BRExit × ℕ
  | 0, trial, w, _, _ => (w, BRExit.fuelOut, trial)
  | fuel + 1, trial, w, best, bd =>
    let errors := samples.filter (fun y => decide (dot w y ≤ margin))
    if errors.length = 0 then
      (w, BRExit.converged, trial)
    else
      let update :=
        vecScale rate (vecSum features
          (errors.map (fun x => vecScale ((margin - dot w x) / sumSq x) x)))
      let w1 := vecAdd w update
      if 100000 < trial then
        (w1, BRExit.capped, trial)
      else
        let best1 := if (errors.length : WithTop ℕ) < best then (errors.length : WithTop ℕ) else best
        let d := sqDist w w1
        let bd1 := if (d : WithTop ℚ) < bd then (d : WithTop ℚ) else bd
        if distLe w w1 (1 / 100000) ∧ approx (criterion w errors margin) 0 (1 / 100000) then
          (w1, BRExit.smallUpdate, trial)
        else
          brLoop samples features rate margin fuel (trial + 1) w1 best1 bd1

/-- Embedding of `batch_relaxation(samples, rate, margin, theta)`.  The rate
precondition `0 < rate < 2` is checked first, raising `ValueError` before
anything else; the random initial weight vector `np.random.rand(features)` is
the explicit argument `init`; with zero sample rows the loop body never runs
and the initial weights are returned unchanged.  (The Python `theta` parameter
is accepted but never read by the function body, so it is not a parameter
here.) -/
def batch_relaxation (rate margin : ℚ) (init : List ℚ) (samples : List (List ℚ))
    (features : ℕ) : Except PErr (List ℚ × BRExit × ℕ) :=
  if 0 < rate ∧ rate < 2 then
    if samples.length = 0 then
      Except.ok (init, BRExit.emptyInput, 0)
    else
      Except.ok (brLoop samples features rate margin 100003 0 init ⊤ ⊤)
  else
    Except.error (PErr.invalidRate rate)

/-- Embedding of the first-occurrence maximum index `np.argmax(l)`: index `0`
when the head is at least every later entry (numpy keeps the first of tied
maxima), else one past the first maximum index of the tail. -/
def npArgmax : List ℚ → ℕ
  | [] => 0
  | a :: rest => if rest.all (fun x => decide (x ≤ a)) then 0 else npArgmax rest + 1

/-- Score of one stored weight vector on a raw sample in `iter_classify`:
`np.dot(a[1:], x) + a[0]` (non-bias coordinates dotted with the raw features,
plus the bias in coordinate 0). -/
def score (x a : List ℚ) : ℚ := dot a.tail x + a.headD 0

/-- Embedding of `Perceptron.iter_classify` (forced eagerly the way `classify`
and `test` force the generator).  The model mapping is the insertion-ordered
association list `weights`.  The Python guard
`assert hasattr(self, "weights")` is always true after `__init__` sets
`self.weights = {}`, so it is a no-op here; with an empty mapping the per-
sample `values` array is empty and `values[:, 1]` raises a numpy `IndexError`. -/
def Perceptron.iter_classify (weights : List (ℚ × List ℚ)) :
    List (List ℚ) → Except PErr (List ℚ)
  | [] => Except.ok []
  | x :: ds =>
    let values := weights.map (fun la => (la.1, score x la.2))
    if values.length = 0 then
      Except.error PErr.indexError
    else
      match Perceptron.iter_classify weights ds with
      | Except.error e => Except.error e
      | Except.ok lbls =>
        Except.ok ((values.getD (npArgmax (values.map (fun p => p.2))) ((0 : ℚ), (0 : ℚ))).1 :: lbls)

/-- Python-dict insertion `m[k] = v`: replace the value at an existing key in
place, else append the new key at the end (insertion order). -/
def dictInsert (m : List (ℚ × List ℚ)) (k : ℚ) (v : List ℚ) : List (ℚ × List ℚ) :=
  match m with
  | [] => [(k, v)]
  | kv :: rest => if kv.1 = k then (k, v) :: rest else kv :: dictInsert rest k v

/-- Embedding of `np.unique(labels)`: the distinct label values in sorted
order. -/
def npUnique (l : List ℚ) : List ℚ := List.insertionSort (fun a b => a ≤ b) l.dedup

/-- Embedding of `Perceptron.train`: for each distinct label of the training
set, normalize the features for that label and store the trained weight vector
under the label — into the existing mapping, which is not cleared first.  The
per-class rule `self.rule.method` (with its extra arguments: the column count
for the all-ones init of `fixed_increment`, or the random init of
`batch_relaxation`) is abstracted as the function `trainer`. -/
def Perceptron.train (trainer : List (List ℚ) → List ℚ) (weights : List (ℚ × List ℚ))
    (samples : List (List ℚ)) (labels : List ℚ) : List (ℚ × List ℚ) :=
  (npUnique labels).foldl
    (fun m label => dictInsert m label (trainer (normalize_features label samples labels)))
    weights

/-- Folding rule by which `fixed_increment` remembers its best candidate:
state `(best, bw)` is replaced by `(count, before-pass weights)` at every
trace entry whose error count is strictly below `best`. -/
def bestFold : WithTop ℕ → List ℚ → List (List ℚ × ℕ) → WithTop ℕ × List ℚ
  | best, bw, [] => (best, bw)
  | best, bw, e :: rest =>
    if (e.2 : WithTop ℕ) < best then bestFold (e.2 : WithTop ℕ) e.1 rest
    else bestFold best bw rest

/-! Theorems.  First the one-step equation lemmas for the two training loops
(their auto-generated equations mention the fuel as `fuel + 1`; restating them
lets proofs unfold a loop exactly once). -/

theorem fiLoop_succ (samples : List (List ℚ)) (theta : ℚ) (fuel trial : ℕ) (w : List ℚ)
    (best : WithTop ℕ) (bw : List ℚ) (bestd : WithTop ℚ) :
    fiLoop samples theta (fuel + 1) trial w best bw bestd =
      (let old := w
      let p := fiPass w samples
      if p.2.length = 0 then
        (p.1, FIExit.converged, trial, [(old, p.2.length)])
      else
        let best1 := if (p.2.length : WithTop ℕ) < best then (p.2.length : WithTop ℕ) else best
        let bw1 := if (p.2.length : WithTop ℕ) < best then old else bw
        if 100000 < trial then
          (bw1, FIExit.capped, trial, [(old, p.2.length)])
        else
          let d := sqDist p.1 old
          let bestd1 := if (d : WithTop ℚ) < bestd then (d : WithTop ℚ) else bestd
          if distLe p.1 old theta then
            (p.1, FIExit.deltaStop, trial, [(old, p.2.length)])
          else
            let r := fiLoop samples theta fuel (trial + 1) p.1 best1 bw1 bestd1
            (r.1, r.2.1, r.2.2.1, (old, p.2.length) :: r.2.2.2)) := by
  rw [fiLoop]

theorem brLoop_succ (samples : List (List ℚ)) (features : ℕ) (rate margin : ℚ)
    (fuel trial : ℕ) (w : List ℚ) (best : WithTop ℕ) (bd : WithTop ℚ) :
    brLoop samples features rate margin (fuel + 1) trial w best bd =
      (let errors := samples.filter (fun y => decide (dot w y ≤ margin))
      if errors.length = 0 then
        (w, BRExit.converged, trial)
      else
        let update :=
          vecScale rate (vecSum features
            (errors.map (fun x => vecScale ((margin - dot w x) / sumSq x) x)))
        let w1 := vecAdd w update
        if 100000 < trial then
          (w1, BRExit.capped, trial)
        else
          let best1 := if (errors.length : WithTop ℕ) < best then (errors.length : WithTop ℕ) else best
          let d := sqDist w w1
          let bd1 := if (d : WithTop ℚ) < bd then (d : WithTop ℚ) else bd
          if distLe w w1 (1 / 100000) ∧ approx (criterion w errors margin) 0 (1 / 100000) then
            (w1, BRExit.smallUpdate, trial)
          else
            brLoop samples features rate margin fuel (trial + 1) w1 best1 bd1) := by
  rw [brLoop]

/-- C10: on an empty sample matrix with `c` columns, `fixed_increment` returns
the all-ones vector of length `c`: the first pass sees no samples, produces
zero errors, and the rule converges at trial 0 with the initial weights
unchanged. -/
theorem fixed_increment_empty_matrix (c : ℕ) (theta : ℚ) :
    fixed_increment [] c theta =
      (List.replicate c 1, FIExit.converged, 0, [(List.replicate c 1, 0)]) := by
  rw [fixed_increment, show (100003 : ℕ) = 100002 + 1 from rfl, fiLoop_succ]
  simp [fiPass]

/-- C3: for an out-of-range learning rate (`rate ≤ 0` or `rate ≥ 2`),
`batch_relaxation` returns the `ValueError` at once, for every margin, sample
matrix and initial weight vector — in particular the result does not depend on
the initial weights, which are never touched. -/
theorem batch_relaxation_invalid_rate (rate margin : ℚ) (init : List ℚ)
    (samples : List (List ℚ)) (features : ℕ) (h : rate ≤ 0 ∨ 2 ≤ rate) :
    batch_relaxation rate margin init samples features =
      Except.error (PErr.invalidRate rate) := by
  rw [batch_relaxation, if_neg]
  rintro ⟨h1, h2⟩
  rcases h with h | h
  · linarith
  · linarith

/-- Witness for C3 at `rate = 2`. -/
theorem batch_relaxation_invalid_rate_witness :
    batch_relaxation 2 (3 / 2) [0] [] 0 = Except.error (PErr.invalidRate 2) :=
  batch_relaxation_invalid_rate 2 (3 / 2) [0] [] 0 (Or.inr le_rfl)

/-- C7: `fixed_increment` is a pure function of the sample matrix (and its
column count and threshold): it consumes no randomness — its initial weights
are the fixed all-ones vector — so two runs on identical input return
identical results, including the weight vector. -/
theorem fixed_increment_deterministic (s1 s2 : List (List ℚ)) (f1 f2 : ℕ) (t1 t2 : ℚ)
    (hs : s1 = s2) (hf : f1 = f2) (ht : t1 = t2) :
    fixed_increment s1 f1 t1 = fixed_increment s2 f2 t2 := by
  subst hs hf ht
  rfl

/-- Witness for C7 on a concrete one-sample matrix. -/
theorem fixed_increment_deterministic_witness :
    fixed_increment [[1]] 1 (3 / 1000000) = fixed_increment [[1]] 1 (3 / 1000000) :=
  fixed_increment_deterministic [[1]] [[1]] 1 1 (3 / 1000000) (3 / 1000000) rfl rfl rfl

theorem zip_getElem? {α β : Type} (as : List α) (bs : List β) :
    ∀ (i : ℕ) (a : α) (b : β), as[i]? = some a → bs[i]? = some b →
      (as.zip bs)[i]? = some (a, b) := by
  induction as generalizing bs with
  | nil => intro i a b ha; simp at ha
  | cons a0 as ih =>
    intro i a b ha hb
    cases bs with
    | nil => simp at hb
    | cons b0 bs =>
      cases i with
      | zero =>
        simp only [List.getElem?_cons_zero, Option.some_inj] at ha hb
        simp [List.zip_cons_cons, ha, hb]
      | succ i =>
        simp only [List.getElem?_cons_succ] at ha hb
        simpa [List.zip_cons_cons] using ih bs i a b ha hb

/-- C5: `normalize_features` keeps one output row per input row in order; row
`i` is the sample with a `1` prepended, the whole `(d+1)`-vector negated
exactly when the row's label differs from the target label; consequently the
leading coordinate of every output row is `1` or `-1`. -/
theorem normalize_features_spec (cls : ℚ) (samples : List (List ℚ)) (labels : List ℚ)
    (h : labels.length = samples.length) :
    (normalize_features cls samples labels).length = samples.length ∧
    (∀ (i : ℕ) (s : List ℚ) (l : ℚ), samples[i]? = some s → labels[i]? = some l →
      (normalize_features cls samples labels)[i]? =
        some (if l ≠ cls then ((1 : ℚ) :: s).map (fun a => -a) else (1 : ℚ) :: s)) ∧
    (∀ r ∈ normalize_features cls samples labels, r.headD 0 = 1 ∨ r.headD 0 = -1) := by
  refine ⟨?_, ?_, ?_⟩
  · simp [normalize_features, h]
  · intro i s l hs hl
    have hz := zip_getElem? samples labels i s l hs hl
    simp only [normalize_features, List.getElem?_map, hz, Option.map_some']
  · intro r hr
    simp only [normalize_features, List.mem_map] at hr
    obtain ⟨sl, _, hsl⟩ := hr
    by_cases hc : sl.2 ≠ cls
    · rw [if_pos hc] at hsl
      right
      rw [← hsl]
      simp
    · rw [if_neg hc] at hsl
      left
      rw [← hsl]
      simp

/-- Witness for C5 on a two-row matrix with one matching and one differing
label. -/
theorem normalize_features_spec_witness :
    (normalize_features 0 [[2], [3]] [0, 1]).length = 2 ∧
    (normalize_features 0 [[2], [3]] [0, 1])[0]? = some ([1, 2] : List ℚ) ∧
    (normalize_features 0 [[2], [3]] [0, 1])[1]? = some ([-1, -3] : List ℚ) := by
  obtain ⟨h1, h2, _⟩ := normalize_features_spec 0 [[2], [3]] [0, 1] rfl
  refine ⟨h1, ?_, ?_⟩
  · have := h2 0 [2] 0 rfl rfl
    norm_num at this
    exact this
  · have := h2 1 [3] 1 rfl rfl
    norm_num at this
    exact this

/-- C2 (code bug): on an untrained model (empty weight mapping) classification
does fail for any actual sample, but with the numpy `IndexError` from
`values[:, 1]` — the guard `assert hasattr(self, "weights")` can never fire
because `__init__` always sets `self.weights = {}` — and on an empty sample
batch it silently returns an empty result instead of raising anything. -/
theorem iter_classify_untrained_eval :
    Perceptron.iter_classify [] [[0]] = Except.error PErr.indexError ∧
    Perceptron.iter_classify [] [] = Except.ok [] := by
  constructor
  · rfl
  · rfl

theorem npArgmax_spec (l : List ℚ) (hl : l ≠ []) :
    ∃ m, l[npArgmax l]? = some m ∧ (∀ x ∈ l, x ≤ m) ∧
      ∀ j, j < npArgmax l → ∀ x, l[j]? = some x → x < m := by
  induction l with
  | nil => exact absurd rfl hl
  | cons a rest ih =>
    rw [npArgmax]
    by_cases hall : rest.all (fun x => decide (x ≤ a))
    · rw [if_pos hall]
      simp only [List.all_eq_true, decide_eq_true_eq] at hall
      refine ⟨a, by simp, ?_, ?_⟩
      · intro x hx
        rcases List.mem_cons.mp hx with rfl | hx
        · exact le_rfl
        · exact hall x hx
      · intro j hj
        omega
    · rw [if_neg hall]
      have hrest : rest ≠ [] := by
        rintro rfl
        simp at hall
      obtain ⟨m, hm, hmax, hstrict⟩ := ih hrest
      have ham : a < m := by
        simp only [List.all_eq_true, decide_eq_true_eq, not_forall] at hall
        obtain ⟨x, hx, hxa⟩ := hall
        exact lt_of_lt_of_le (not_le.mp hxa) (hmax x hx)
      refine ⟨m, by simpa using hm, ?_, ?_⟩
      · intro x hx
        rcases List.mem_cons.mp hx with rfl | hx
        · exact le_of_lt ham
        · exact hmax x hx
      · intro j hj x hx
        cases j with
        | zero =>
          simp only [List.getElem?_cons_zero, Option.some_inj] at hx
          exact hx ▸ ham
        | succ j =>
          simp only [List.getElem?_cons_succ] at hx
          exact hstrict j (by omega) x hx

/-- C6: on a non-empty mapping, classification computes the score
`weights[1:]·x + weights[0]` of every stored `(label, weights)` pair in order
and returns the label of a pair whose score is maximal and which is the first
pair attaining that maximum (every strictly earlier pair scores strictly
lower), matching the first-occurrence semantics of `np.argmax`. -/
theorem iter_classify_argmax (x : List ℚ) (la0 : ℚ × List ℚ) (rest : List (ℚ × List ℚ)) :
    ∃ (j : ℕ) (p : ℚ × ℚ),
      ((la0 :: rest).map (fun la => (la.1, score x la.2)))[j]? = some p ∧
      Perceptron.iter_classify (la0 :: rest) [x] = Except.ok [p.1] ∧
      (∀ q ∈ (la0 :: rest).map (fun la => (la.1, score x la.2)), q.2 ≤ p.2) ∧
      (∀ k, k < j → ∀ q, ((la0 :: rest).map (fun la => (la.1, score x la.2)))[k]? = some q →
        q.2 < p.2) := by
  have hscons : ((la0 :: rest).map (fun la => (la.1, score x la.2))).map
      (fun p => p.2) ≠ [] := by simp
  obtain ⟨m, hm, hmax, hstrict⟩ :=
    npArgmax_spec (((la0 :: rest).map (fun la => (la.1, score x la.2))).map (fun p => p.2)) hscons
  have hjlen := (List.getElem?_eq_some.mp hm).1
  rw [List.length_map] at hjlen
  refine ⟨npArgmax (((la0 :: rest).map (fun la => (la.1, score x la.2))).map (fun p => p.2)),
    ((la0 :: rest).map (fun la => (la.1, score x la.2))).get ⟨_, hjlen⟩, ?_, ?_, ?_, ?_⟩
  · rw [List.getElem?_eq_getElem hjlen]
    simp
  · rw [Perceptron.iter_classify]
    rw [if_neg (by simp)]
    rw [Perceptron.iter_classify]
    have hget : ((la0 :: rest).map (fun la => (la.1, score x la.2))).getD
        (npArgmax (((la0 :: rest).map (fun la => (la.1, score x la.2))).map (fun p => p.2)))
        ((0 : ℚ), (0 : ℚ)) =
        ((la0 :: rest).map (fun la => (la.1, score x la.2))).get ⟨_, hjlen⟩ := by
      rw [List.getD_eq_getElem?_getD, List.getElem?_eq_getElem hjlen]
      simp
    simp only [hget]
  · intro q hq
    have hq2 : q.2 ∈ ((la0 :: rest).map (fun la => (la.1, score x la.2))).map
        (fun p => p.2) := List.mem_map_of_mem (fun p => p.2) hq
    have hpm : (((la0 :: rest).map (fun la => (la.1, score x la.2))).get ⟨_, hjlen⟩).2 = m := by
      rw [List.getElem?_map, List.getElem?_eq_getElem hjlen] at hm
      simp only [Option.map_some', Option.some_inj] at hm
      simpa using hm
    rw [hpm]
    exact hmax q.2 hq2
  · intro k hk q hq
    have hpm : (((la0 :: rest).map (fun la => (la.1, score x la.2))).get ⟨_, hjlen⟩).2 = m := by
      rw [List.getElem?_map, List.getElem?_eq_getElem hjlen] at hm
      simp only [Option.map_some', Option.some_inj] at hm
      simpa using hm
    rw [hpm]
    refine hstrict k hk q.2 ?_
    rw [List.getElem?_map, hq]
    simp

theorem brLoop_converged (samples : List (List ℚ)) (features : ℕ) (rate margin : ℚ) :
    ∀ (fuel trial : ℕ) (w : List ℚ) (best : WithTop ℕ) (bd : WithTop ℚ)
      (w2 : List ℚ) (t2 : ℕ),
      brLoop samples features rate margin fuel trial w best bd = (w2, BRExit.converged, t2) →
      ∀ y ∈ samples, margin < dot w2 y := by
  intro fuel
  induction fuel with
  | zero =>
    intro trial w best bd w2 t2 h
    rw [brLoop] at h
    injection h with h1 h2
    injection h2 with h2 h3
    exact BRExit.noConfusion h2
  | succ fuel ih =>
    intro trial w best bd w2 t2 h
    rw [brLoop_succ] at h
    dsimp only at h
    split at h
    · rename_i hc
      injection h with h1 h2
      injection h2 with h2 h3
      subst h1
      have hnil := List.length_eq_zero.mp hc
      intro y hy
      by_contra hle
      have hmem : y ∈ samples.filter (fun y => decide (dot w y ≤ margin)) :=
        List.mem_filter.mpr ⟨hy, by simpa using not_lt.mp hle⟩
      rw [hnil] at hmem
      simp at hmem
    · rename_i hc
      split at h
      · injection h with h1 h2
        injection h2 with h2 h3
        exact BRExit.noConfusion h2
      · split at h
        · injection h with h1 h2
          injection h2 with h2 h3
          exact BRExit.noConfusion h2
        · exact ih _ _ _ _ _ _ h

/-- C4: whenever `batch_relaxation` terminates by the empty-error-set exit
(convergence), every augmented sample scores strictly above the margin against
the returned weights, hence strictly above zero whenever the margin is
positive. -/
theorem batch_relaxation_converged (rate margin : ℚ) (init : List ℚ)
    (samples : List (List ℚ)) (features : ℕ) (w : List ℚ) (t : ℕ)
    (h : batch_relaxation rate margin init samples features =
      Except.ok (w, BRExit.converged, t)) :
    ∀ y ∈ samples, margin < dot w y ∧ (0 < margin → 0 < dot w y) := by
  rw [batch_relaxation] at h
  by_cases hr : 0 < rate ∧ rate < 2
  · rw [if_pos hr] at h
    by_cases hn : samples.length = 0
    · rw [if_pos hn] at h
      injection h with h1
      injection h1 with h1 h2
      injection h2 with h2 h3
      exact BRExit.noConfusion h2
    · rw [if_neg hn] at h
      injection h with h1
      intro y hy
      have hm := brLoop_converged samples features rate margin 100003 0 init ⊤ ⊤ w t h1 y hy
      exact ⟨hm, fun hmpos => lt_trans hmpos hm⟩
  · rw [if_neg hr] at h
    exact Except.noConfusion h

/-- Witness for C4 on a one-sample matrix that converges at trial 0. -/
theorem batch_relaxation_converged_witness :
    (1 : ℚ) < dot [1] [2] ∧ ((0 : ℚ) < 1 → 0 < dot [1] [2]) := by
  have h : batch_relaxation 1 1 [1] [[2]] 1 = Except.ok ([1], BRExit.converged, 0) := by
    rw [batch_relaxation, if_pos (show (0 : ℚ) < 1 ∧ (1 : ℚ) < 2 by norm_num),
      if_neg (show ¬ ([[2]] : List (List ℚ)).length = 0 by simp)]
    rw [show (100003 : ℕ) = 100002 + 1 from rfl, brLoop_succ]
    simp only [List.filter_cons, List.filter_nil, decide_eq_true_eq]
    rw [if_neg (show ¬ (dot [1] [2] ≤ 1) by norm_num [dot])]
    rw [if_pos (show ([] : List (List ℚ)).length = 0 from rfl)]
  exact batch_relaxation_converged 1 1 [1] [[2]] 1 [1] 0 h [2] (by simp)

theorem fiLoop_fuel (samples : List (List ℚ)) (theta : ℚ) :
    ∀ (fuel trial : ℕ) (w : List ℚ) (best : WithTop ℕ) (bw : List ℚ) (bestd : WithTop ℚ),
      100002 ≤ fuel + trial → trial ≤ 100001 →
      (fiLoop samples theta fuel trial w best bw bestd).2.1 ≠ FIExit.fuelOut ∧
      (fiLoop samples theta fuel trial w best bw bestd).2.2.1 ≤ 100001 := by
  intro fuel
  induction fuel with
  | zero =>
    intro trial w best bw bestd h1 h2
    exact absurd h1 (by omega)
  | succ fuel ih =>
    intro trial w best bw bestd h1 h2
    rw [fiLoop_succ]
    dsimp only
    split
    · exact ⟨by simp, h2⟩
    · split
      · exact ⟨by simp, h2⟩
      · rename_i hcap
        split
        · exact ⟨by simp, h2⟩
        · dsimp only
          exact ih (trial + 1) _ _ _ _ (by omega) (by omega)

theorem brLoop_fuel (samples : List (List ℚ)) (features : ℕ) (rate margin : ℚ) :
    ∀ (fuel trial : ℕ) (w : List ℚ) (best : WithTop ℕ) (bd : WithTop ℚ),
      100002 ≤ fuel + trial → trial ≤ 100001 →
      (brLoop samples features rate margin fuel trial w best bd).2.1 ≠ BRExit.fuelOut ∧
      (brLoop samples features rate margin fuel trial w best bd).2.2 ≤ 100001 := by
  intro fuel
  induction fuel with
  | zero =>
    intro trial w best bd h1 h2
    exact absurd h1 (by omega)
  | succ fuel ih =>
    intro trial w best bd h1 h2
    rw [brLoop_succ]
    dsimp only
    split
    · exact ⟨by simp, h2⟩
    · split
      · exact ⟨by simp, h2⟩
      · rename_i hcap
        split
        · exact ⟨by simp, h2⟩
        · exact ih (trial + 1) _ _ _ (by omega) (by omega)

/-- C8: both training loops terminate under their 100 000-trial caps: a
`fixed_increment` run never exhausts its fuel and ends with final trial number
at most 100 001 (so at most 100 002 trials run), and every `batch_relaxation`
call with a valid rate returns a result whose loop likewise did not exhaust
fuel and ended by trial 100 001. -/
theorem training_loops_terminate :
    (∀ (samples : List (List ℚ)) (features : ℕ) (theta : ℚ),
      (fixed_increment samples features theta).2.1 ≠ FIExit.fuelOut ∧
      (fixed_increment samples features theta).2.2.1 ≤ 100001) ∧
    (∀ (rate margin : ℚ) (init : List ℚ) (samples : List (List ℚ)) (features : ℕ),
      0 < rate → rate < 2 →
      ∃ w e t, batch_relaxation rate margin init samples features = Except.ok (w, e, t) ∧
        e ≠ BRExit.fuelOut ∧ t ≤ 100001) := by
  constructor
  · intro samples features theta
    exact fiLoop_fuel samples theta 100003 0 _ _ _ _ (by omega) (by omega)
  · intro rate margin init samples features h1 h2
    rw [batch_relaxation, if_pos ⟨h1, h2⟩]
    by_cases hn : samples.length = 0
    · rw [if_pos hn]
      exact ⟨init, BRExit.emptyInput, 0, rfl, by simp, by omega⟩
    · rw [if_neg hn]
      have hb := brLoop_fuel samples features rate margin 100003 0 init ⊤ ⊤ (by omega) (by omega)
      exact ⟨(brLoop samples features rate margin 100003 0 init ⊤ ⊤).1,
        (brLoop samples features rate margin 100003 0 init ⊤ ⊤).2.1,
        (brLoop samples features rate margin 100003 0 init ⊤ ⊤).2.2, rfl, hb.1, hb.2⟩

/-- Witness for C8 applying the batch half (the half with hypotheses) at a
valid rate. -/
theorem training_loops_terminate_witness :
    ∃ w e t, batch_relaxation 1 (3 / 2) [1] [[2]] 1 = Except.ok (w, e, t) ∧
      e ≠ BRExit.fuelOut ∧ t ≤ 100001 :=
  training_loops_terminate.2 1 (3 / 2) [1] [[2]] 1 (by norm_num) (by norm_num)

theorem lookup_dictInsert_self (k : ℚ) (v : List ℚ) :
    ∀ m : List (ℚ × List ℚ), List.lookup k (dictInsert m k v) = some v := by
  intro m
  induction m with
  | nil => simp [dictInsert]
  | cons kv rest ih =>
    obtain ⟨k1, v1⟩ := kv
    rw [dictInsert]
    by_cases h : k1 = k
    · rw [if_pos h]
      simp
    · rw [if_neg h]
      rw [List.lookup]
      rw [show (k == k1) = false from beq_eq_false_iff_ne.mpr (Ne.symm h)]
      exact ih

theorem lookup_dictInsert_ne (k v k') (h : k' ≠ k) :
    ∀ m : List (ℚ × List ℚ),
      List.lookup k' (dictInsert m k v) = List.lookup k' m := by
  intro m
  induction m with
  | nil =>
    simp [dictInsert, List.lookup, beq_eq_false_iff_ne.mpr h]
  | cons kv rest ih =>
    obtain ⟨k1, v1⟩ := kv
    rw [dictInsert]
    by_cases hk : k1 = k
    · rw [if_pos hk]
      subst hk
      rw [List.lookup, List.lookup]
      rw [show (k' == k1) = false from beq_eq_false_iff_ne.mpr h]
    · rw [if_neg hk]
      rw [List.lookup, List.lookup]
      by_cases he : k' = k1
      · rw [show (k' == k1) = true from beq_iff_eq.mpr he]
      · rw [show (k' == k1) = false from beq_eq_false_iff_ne.mpr he]
        exact ih

theorem npUnique_nodup (l : List ℚ) : (npUnique l).Nodup := by
  rw [npUnique]
  exact ((List.perm_insertionSort _ l.dedup).nodup_iff).mpr l.nodup_dedup

theorem mem_npUnique (l : List ℚ) (x : ℚ) : x ∈ npUnique l ↔ x ∈ l := by
  rw [npUnique]
  rw [(List.perm_insertionSort _ _).mem_iff]
  exact List.mem_dedup

theorem foldl_dictInsert_lookup (g : ℚ → List ℚ) (l : ℚ) :
    ∀ (u : List ℚ), u.Nodup → ∀ (m : List (ℚ × List ℚ)),
      (l ∉ u → List.lookup l (u.foldl (fun m lab => dictInsert m lab (g lab)) m) =
        List.lookup l m) ∧
      (l ∈ u → List.lookup l (u.foldl (fun m lab => dictInsert m lab (g lab)) m) =
        some (g l)) := by
  intro u
  induction u with
  | nil =>
    intro _ m
    exact ⟨fun _ => rfl, fun hl => absurd hl (List.not_mem_nil l)⟩
  | cons a u ih =>
    intro hnd m
    have hnd' := List.nodup_cons.mp hnd
    constructor
    · intro hl
      have h1 : l ≠ a := fun e => hl (e ▸ List.mem_cons_self a u)
      have h2 : l ∉ u := fun hu => hl (List.mem_cons_of_mem a hu)
      rw [List.foldl_cons, (ih hnd'.2 (dictInsert m a (g a))).1 h2]
      exact lookup_dictInsert_ne a (g a) l h1 m
    · intro hl
      rw [List.foldl_cons]
      rcases List.mem_cons.mp hl with rfl | hu
      · rw [(ih hnd'.2 (dictInsert m l (g l))).1 hnd'.1]
        exact lookup_dictInsert_self l (g l) m
      · exact (ih hnd'.2 (dictInsert m a (g a))).2 hu

/-- C9 counterexample: training on labels `[1]` starting from a mapping that
already holds a weight vector for label `0` leaves the stale entry for `0` in
place — `Perceptron.train` never clears the mapping. -/
theorem perceptron_train_stale :
    Perceptron.train (fun _ => [9]) [(0, [5])] [[1]] [1] = [(0, [5]), (1, [9])] ∧
    (0 : ℚ) ∉ ([1] : List ℚ) := by
  constructor
  · rfl
  · decide

/-- C9 (amended): after `Perceptron.train`, every distinct label of the
training set maps to the weight vector freshly trained on its normalized
features, while the entry of any label not in the training set is unchanged
from before the call (stale entries from earlier training calls persist: the
mapping is not cleared). -/
theorem perceptron_train_charact (trainer : List (List ℚ) → List ℚ)
    (m : List (ℚ × List ℚ)) (samples : List (List ℚ)) (labels : List ℚ) (l : ℚ) :
    (l ∉ labels → List.lookup l (Perceptron.train trainer m samples labels) =
      List.lookup l m) ∧
    (l ∈ labels → List.lookup l (Perceptron.train trainer m samples labels) =
      some (trainer (normalize_features l samples labels))) := by
  have h := foldl_dictInsert_lookup
    (fun lab => trainer (normalize_features lab samples labels)) l
    (npUnique labels) (npUnique_nodup labels) m
  constructor
  · intro hl
    have := h.1 (fun hm => hl ((mem_npUnique labels l).mp hm))
    simpa [Perceptron.train] using this
  · intro hl
    have := h.2 ((mem_npUnique labels l).mpr hl)
    simpa [Perceptron.train] using this

/-- Witness for C9's amended theorem: the stale entry for label `0` keeps its
old vector, the trained label `1` gets the trainer's output. -/
theorem perceptron_train_charact_witness :
    List.lookup 0 (Perceptron.train (fun _ => [9]) [(0, [5])] [[1]] [1]) = some [5] ∧
    List.lookup 1 (Perceptron.train (fun _ => [9]) [(0, [5])] [[1]] [1]) = some [9] := by
  constructor
  · exact (perceptron_train_charact (fun _ => [9]) [(0, [5])] [[1]] [1] 0).1 (by decide)
  · exact (perceptron_train_charact (fun _ => [9]) [(0, [5])] [[1]] [1] 1).2 (by decide)

theorem bestFold_spec :
    ∀ (tr : List (List ℚ × ℕ)) (b : WithTop ℕ) (w : List ℚ),
      (bestFold b w tr = (b, w) ∧ ∀ e ∈ tr, b ≤ (e.2 : WithTop ℕ)) ∨
      (∃ i, ∃ hi : i < tr.length,
        bestFold b w tr = (((tr.get ⟨i, hi⟩).2 : WithTop ℕ), (tr.get ⟨i, hi⟩).1) ∧
        ((tr.get ⟨i, hi⟩).2 : WithTop ℕ) < b ∧
        (∀ j, ∀ hj : j < tr.length, (tr.get ⟨i, hi⟩).2 ≤ (tr.get ⟨j, hj⟩).2) ∧
        (∀ j, ∀ hj : j < tr.length, j < i → (tr.get ⟨i, hi⟩).2 < (tr.get ⟨j, hj⟩).2)) := by
  intro tr
  induction tr with
  | nil =>
    intro b w
    left
    exact ⟨rfl, by simp⟩
  | cons e rest ih =>
    intro b w
    rw [bestFold]
    by_cases hc : (e.2 : WithTop ℕ) < b
    · rw [if_pos hc]
      right
      rcases ih (e.2 : WithTop ℕ) e.1 with ⟨heq, hall⟩ | ⟨i, hi, heq, hlt, hmin, hstrict⟩
      · refine ⟨0, by simp, by simpa using heq, hc, ?_, ?_⟩
        · intro j hj
          cases j with
          | zero => simp
          | succ j =>
            have hjr : j < rest.length := by simpa using hj
            have := hall (rest.get ⟨j, hjr⟩) (rest.get_mem _ _)
            simpa using this
        · intro j hj hj0
          omega
      · refine ⟨i + 1, by simpa using hi, by simpa using heq, lt_trans hlt hc, ?_, ?_⟩
        · intro j hj
          cases j with
          | zero =>
            simpa using le_of_lt (WithTop.coe_lt_coe.mp hlt)
          | succ j =>
            have hjr : j < rest.length := by simpa using hj
            simpa using hmin j hjr
        · intro j hj hji
          cases j with
          | zero =>
            simpa using WithTop.coe_lt_coe.mp hlt
          | succ j =>
            have hjr : j < rest.length := by simpa using hj
            simpa using hstrict j hjr (by omega)
    · rw [if_neg hc]
      rcases ih b w with ⟨heq, hall⟩ | ⟨i, hi, heq, hlt, hmin, hstrict⟩
      · left
        refine ⟨heq, ?_⟩
        intro x hx
        rcases List.mem_cons.mp hx with rfl | hx
        · exact not_lt.mp hc
        · exact hall x hx
      · right
        have hib : ((rest.get ⟨i, hi⟩).2 : WithTop ℕ) < (e.2 : WithTop ℕ) :=
          lt_of_lt_of_le hlt (not_lt.mp hc)
        refine ⟨i + 1, by simpa using hi, by simpa using heq, hlt, ?_, ?_⟩
        · intro j hj
          cases j with
          | zero =>
            simpa using le_of_lt (WithTop.coe_lt_coe.mp hib)
          | succ j =>
            have hjr : j < rest.length := by simpa using hj
            simpa using hmin j hjr
        · intro j hj hji
          cases j with
          | zero =>
            simpa using WithTop.coe_lt_coe.mp hib
          | succ j =>
            have hjr : j < rest.length := by simpa using hj
            simpa using hstrict j hjr (by omega)

theorem fiLoop_capped (samples : List (List ℚ)) (theta : ℚ) :
    ∀ (fuel trial : ℕ) (w : List ℚ) (best : WithTop ℕ) (bw : List ℚ) (bestd : WithTop ℚ),
      (fiLoop samples theta fuel trial w best bw bestd).2.1 = FIExit.capped →
      (fiLoop samples theta fuel trial w best bw bestd).1 =
        (bestFold best bw (fiLoop samples theta fuel trial w best bw bestd).2.2.2).2 ∧
      (fiLoop samples theta fuel trial w best bw bestd).2.2.2 ≠ [] := by
  intro fuel
  induction fuel with
  | zero =>
    intro trial w best bw bestd h
    rw [fiLoop] at h
    simp at h
  | succ fuel ih =>
    intro trial w best bw bestd h
    rw [fiLoop_succ] at h ⊢
    dsimp only at h ⊢
    by_cases hc1 : (fiPass w samples).2.length = 0
    · rw [if_pos hc1] at h
      simp at h
    · rw [if_neg hc1] at h ⊢
      by_cases hc2 : 100000 < trial
      · rw [if_pos hc2] at h ⊢
        dsimp only
        constructor
        · by_cases hc : ((fiPass w samples).2.length : WithTop ℕ) < best
          · rw [if_pos hc, bestFold, if_pos hc, bestFold]
          · rw [if_neg hc, bestFold, if_neg hc, bestFold]
        · simp
      · rw [if_neg hc2] at h ⊢
        by_cases hc3 : distLe (fiPass w samples).1 w theta
        · rw [if_pos hc3] at h
          simp at h
        · rw [if_neg hc3] at h ⊢
          dsimp only at h ⊢
          refine ⟨?_, by simp⟩
          rw [bestFold]
          dsimp only
          by_cases hc : ((fiPass w samples).2.length : WithTop ℕ) < best
          · simp only [if_pos hc] at h ⊢
            exact (ih (trial + 1) _ _ _ _ h).1
          · simp only [if_neg hc] at h ⊢
            exact (ih (trial + 1) _ _ _ _ h).1

/-- C1: when `fixed_increment` gives up at the trial cap (capped exit — the
run had no zero-error pass and no delta at or below the threshold, which would
have exited earlier), the returned vector is not the current weights but the
remembered best candidate: the weights held before the updates of some trial
whose error count is at most every trial's count and strictly below every
earlier trial's count (the first trial attaining the minimum, exactly what the
strict `len(errors) < best` tracking remembers). -/
theorem fixed_increment_cap_best (samples : List (List ℚ)) (features : ℕ) (theta : ℚ)
    (w2 : List ℚ) (t2 : ℕ) (tr : List (List ℚ × ℕ))
    (h : fixed_increment samples features theta = (w2, FIExit.capped, t2, tr)) :
    ∃ i, ∃ hi : i < tr.length,
      w2 = (tr.get ⟨i, hi⟩).1 ∧
      (∀ j, ∀ hj : j < tr.length, (tr.get ⟨i, hi⟩).2 ≤ (tr.get ⟨j, hj⟩).2) ∧
      (∀ j, ∀ hj : j < tr.length, j < i → (tr.get ⟨i, hi⟩).2 < (tr.get ⟨j, hj⟩).2) := by
  have hfi : fiLoop samples theta 100003 0 (List.replicate features 1) ⊤
      (List.replicate features 1) ⊤ = (w2, FIExit.capped, t2, tr) := h
  have hinv := fiLoop_capped samples theta 100003 0 (List.replicate features 1) ⊤
    (List.replicate features 1) ⊤ (by rw [hfi])
  rw [hfi] at hinv
  dsimp only at hinv
  obtain ⟨hw2, htr⟩ := hinv
  rcases bestFold_spec tr ⊤ (List.replicate features 1) with
    ⟨heq, hall⟩ | ⟨i, hi, heq, hlt, hmin, hstrict⟩
  · obtain ⟨e, he⟩ := List.exists_mem_of_ne_nil tr htr
    exact absurd (hall e he) (by simp)
  · refine ⟨i, hi, ?_, hmin, hstrict⟩
    rw [hw2, heq]

theorem fiPass_zero_sample : fiPass [1] [[0]] = ([1], [[0]]) := by
  rw [fiPass]
  rw [if_pos (show dot [1] [0] ≤ 0 by norm_num [dot])]
  rw [fiPass]
  norm_num [vecAdd]

theorem fiLoop_zero_run :
    ∀ (fuel trial : ℕ) (bestd : WithTop ℚ), trial ≤ 100001 → 100002 ≤ trial + fuel →
      fiLoop [[0]] (-1) fuel trial [1] ((1 : ℕ) : WithTop ℕ) [1] bestd =
        ([1], FIExit.capped, 100001, List.replicate (100002 - trial) ([1], 1)) := by
  intro fuel
  induction fuel with
  | zero =>
    intro trial bestd h1 h2
    exact absurd h2 (by omega)
  | succ fuel ih =>
    intro trial bestd h1 h2
    rw [fiLoop_succ]
    dsimp only
    rw [fiPass_zero_sample]
    dsimp only
    simp only [List.length_singleton]
    rw [if_neg (show ¬ ((1 : ℕ) = 0) by omega)]
    by_cases hl : trial = 100001
    · subst hl
      rw [if_pos (show (100000 : ℕ) < 100001 by norm_num)]
      simp
    · rw [if_neg (show ¬ (100000 < trial) by omega)]
      rw [if_neg (show ¬ distLe [1] [1] (-1) from fun hd => by
        have := hd.1
        norm_num at this)]
      simp only [ite_self]
      rw [ih (trial + 1) _ (by omega) (by omega)]
      dsimp only
      rw [show (100002 : ℕ) - trial = (100002 - (trial + 1)) + 1 from by omega,
        List.replicate_succ]

theorem cons_replicate_pred {α : Type} (n : ℕ) (x : α) (h : 1 ≤ n) :
    x :: List.replicate (n - 1) x = List.replicate n x := by
  cases n with
  | zero => omega
  | succ n => simp [List.replicate_succ]

theorem fixed_increment_cap_run :
    fixed_increment [[0]] 1 (-1) =
      ([1], FIExit.capped, 100001, List.replicate 100002 ([1], 1)) := by
  rw [fixed_increment, show (100003 : ℕ) = 100002 + 1 from rfl, fiLoop_succ]
  dsimp only
  simp only [List.replicate_one]
  rw [fiPass_zero_sample]
  dsimp only
  simp only [List.length_singleton]
  rw [if_neg (show ¬ ((1 : ℕ) = 0) by omega)]
  rw [if_neg (show ¬ ((100000 : ℕ) < 0) by omega)]
  rw [if_neg (show ¬ distLe [1] [1] (-1) from fun hd => by
    have := hd.1
    norm_num at this)]
  simp only [if_pos (show ((1 : ℕ) : WithTop ℕ) < ⊤ from by simp)]
  simp only [Nat.zero_add]
  rw [fiLoop_zero_run 100002 1 _ (by omega) (by omega)]
  dsimp only
  rw [cons_replicate_pred 100002 (([1] : List ℚ), (1 : ℕ)) (by omega)]

/-- Witness for C1: the run on the single zero sample with a negative
threshold caps out; the theorem locates the best-candidate trial in its trace
(every trial has error count 1, so trial 0 is the first minimum). -/
theorem fixed_increment_cap_best_witness :
    ∃ i, ∃ hi : i < (List.replicate 100002 (([1] : List ℚ), 1)).length,
      ([1] : List ℚ) = ((List.replicate 100002 (([1] : List ℚ), 1)).get ⟨i, hi⟩).1 ∧
      (∀ j, ∀ hj : j < (List.replicate 100002 (([1] : List ℚ), 1)).length,
        ((List.replicate 100002 (([1] : List ℚ), 1)).get ⟨i, hi⟩).2 ≤
          ((List.replicate 100002 (([1] : List ℚ), 1)).get ⟨j, hj⟩).2) ∧
      (∀ j, ∀ hj : j < (List.replicate 100002 (([1] : List ℚ), 1)).length, j < i →
        ((List.replicate 100002 (([1] : List ℚ), 1)).get ⟨i, hi⟩).2 <
          ((List.replicate 100002 (([1] : List ℚ), 1)).get ⟨j, hj⟩).2) :=
  fixed_increment_cap_best [[0]] 1 (-1) [1] 100001 _ fixed_increment_cap_run
